import Mathlib

/-!
Verification of the DNSpeedy DNS speed tester (`src/dnspeedy.py`).

The script probes each DNS server in a candidate list with `dig`, parses the
reported query time (milliseconds, or `float('inf')` on timeout / error /
unparsable output), and maintains the 10 fastest servers in a bounded heap
(`DNSSpeedTester._update_heap`).  Python stores pairs `(-response_time,
dns_server)` in a `heapq` min-heap, so `heap[0]` is the entry with the largest
response time (ties on time broken by the smaller server string, because
Python compares tuples lexicographically).

The embedding below represents latencies as `WithTop ℚ` (`⊤` is
`float('inf')`), stores heap entries as `(response_time, dns_server)` (sign
un-flipped), and models the `heapq` array at multiset level: `heapTop`
computes the value of `heap[0]` (the minimum entry in Python's tuple order,
re-expressed on un-negated times as `entryLt`), `heappush` adds an entry and
`heappushpop` adds an entry and removes one occurrence of the minimum — which
is exactly what the `heapq` invariants guarantee about the contents of the
array.  The internal array layout is not tracked; every observation the
script makes of the heap (its length, `heap[0]`, and the final sort) factors
through the multiset of entries, except for the order of exactly-tied
latencies in the final sorted output, which is representation-dependent both
here and in the source.
-/

namespace DNSpeedy

/-- Latency in milliseconds; `⊤` models `float('inf')`. -/
abbrev Latency : Type := WithTop ℚ

/-- A measurement `(dns_server, response_time)`, as returned by
`_test_dns_speed`. -/
abbrev Ms : Type := String × Latency

/-- A heap entry.  Python stores `(-response_time, dns_server)`; we store
`(response_time, dns_server)` and compensate in the order `entryLt`. -/
abbrev Entry : Type := Latency × String

/-- `entryLt a b` holds iff Python's tuple `(-a.1, a.2)` is strictly smaller
than `(-b.1, b.2)` in lexicographic order. -/
def entryLt (a b : Entry) : Prop := b.1 < a.1 ∨ (a.1 = b.1 ∧ a.2 < b.2)

/-- Decidability of `entryLt`.  Lean's `String` order is the lexicographic
order on the underlying character lists, so the comparison is routed through
`List Char` (whose decision procedure the kernel can evaluate on
literals). -/
instance : DecidableRel entryLt := fun a b =>
  decidable_of_iff (b.1 < a.1 ∨ (a.1 = b.1 ∧ a.2.toList < b.2.toList))
    (by unfold entryLt
        exact or_congr Iff.rfl
          (and_congr Iff.rfl String.lt_iff_toList_lt.symm))

/-- The smaller of two entries in Python's heap order (ties keep the first
argument, which is immaterial: tied arguments are equal values). -/
def min2 (a b : Entry) : Entry := if entryLt b a then b else a

/-- The value of `heap[0]`: the minimum entry of the heap in Python's tuple
order, i.e. the entry with the largest response time (smallest server string
on ties).  The `[]` case is never reached by the script (the heap is only
inspected when it holds 10 entries). -/
def heapTop : List Entry → Entry
  | [] => (⊤, "")
  | e :: l => l.foldl min2 e

/-- `heapq.heappush`: contents gain one entry. -/
def heappush (h : List Entry) (e : Entry) : List Entry := e :: h

/-- Remove the first occurrence of `a` (the element `heapq` pops). -/
def eraseEntry : List Entry → Entry → List Entry
  | [], _ => []
  | x :: l, a => if x = a then l else x :: eraseEntry l a

/-- `heapq.heappushpop`: push `e`, then pop the minimum of the combined
heap; the contents lose one occurrence of that minimum value. -/
def heappushpop (h : List Entry) (e : Entry) : List Entry :=
  eraseEntry (e :: h) (heapTop (e :: h))

/-- The mutable state of a `DNSSpeedTester`: the `results` dict (an insertion
-ordered association list, as in CPython) and the `fastest_dns` heap. -/
structure TesterState where
  results : List (String × Latency)
  fastest_dns : List Entry
  deriving DecidableEq

/-- State after `__init__`: empty dict, empty heap. -/
def initState : TesterState := ⟨[], []⟩

/-- `self.results[dns_server] = response_time`: overwrite in place if the key
exists, else append. -/
def dictUpd : List (String × Latency) → String → Latency → List (String × Latency)
  | [], k, v => [(k, v)]
  | (k', v') :: rest, k, v =>
      if k' = k then (k, v) :: rest else (k', v') :: dictUpd rest k v

/-- `DNSSpeedTester._update_heap` (the `results` update, common to all
branches in the source, is written out per branch here).  The guard
`-response_time > self.fastest_dns[0][0]` is `response_time <
(heapTop ...).1` on un-negated times. -/
def updateHeap (st : TesterState) (dns_server : String) (response_time : Latency) :
    TesterState :=
  if st.fastest_dns.length < 10 then
    ⟨dictUpd st.results dns_server response_time,
      heappush st.fastest_dns (response_time, dns_server)⟩
  else if response_time < (heapTop st.fastest_dns).1 then
    ⟨dictUpd st.results dns_server response_time,
      heappushpop st.fastest_dns (response_time, dns_server)⟩
  else
    ⟨dictUpd st.results dns_server response_time, st.fastest_dns⟩

/-- Insert one measurement. -/
def insertMs (st : TesterState) (m : Ms) : TesterState := updateHeap st m.1 m.2

/-- Insert a list of measurements, starting from `st`. -/
def insertAllFrom (st : TesterState) (ms : List Ms) : TesterState :=
  ms.foldl insertMs st

/-- Insert a list of measurements into a fresh tester. -/
def insertAll (ms : List Ms) : TesterState := insertAllFrom initState ms

/-- Order on heap entries used by the final sort in `run_test`:
`self.fastest_dns.sort(key=lambda x: -x[0])` sorts ascending by response
time. -/
def eLe (a b : Entry) : Prop := a.1 ≤ b.1

instance : DecidableRel eLe := fun a b => inferInstanceAs (Decidable (a.1 ≤ b.1))

instance : IsTotal Entry eLe := ⟨fun a b => le_total a.1 b.1⟩

instance : IsTrans Entry eLe := ⟨fun _ _ _ h1 h2 => le_trans h1 h2⟩

/-- The finalization step of `run_test`: sort the heap ascending by response
time and read the members off as `(address, latency)` pairs. -/
def finalizeHeap (st : TesterState) : List Ms :=
  (List.insertionSort eLe st.fastest_dns).map (fun e => (e.2, e.1))

/-- The value `run_test` returns: the servers only, fastest first. -/
def fastestServers (st : TesterState) : List String :=
  (finalizeHeap st).map Prod.fst

/-! ### The probe (`_test_dns_speed`)

The `subprocess.run(...)` call is the external collaborator: its outcome is
either captured stdout, a `TimeoutExpired`, or some other raised exception.
`_test_dns_speed` catches the latter two and converts them, and any output
from which no query time can be parsed, to `float('inf')`. -/

/-- Outcome of the `subprocess.run` probe call for one server. -/
inductive ProbeResult where
  | completed (stdout : String)
  | timedOut
  | raisedError (msg : String)
  deriving DecidableEq

/-- Value of a digit run, as `float(match.group(1))` would compute it. -/
def digitsToNat (ds : List Char) : Nat :=
  ds.foldl (fun n c => 10 * n + (c.toNat - 48)) 0

/-- The literal part of the pattern `r'Query time: (\d+) msec'` before the
capture group. -/
def litQT : List Char := "Query time: ".data

/-- The literal part of the pattern after the capture group. -/
def litMsec : List Char := " msec".data

/-- Try to match `Query time: (\d+) msec` at the head of `l`.  `\d+` is
greedy and the character after any shorter digit run would be a digit (never
the required space), so maximal munch is exact. -/
def matchQTAt (l : List Char) : Option Nat :=
  if litQT.isPrefixOf l then
    let rest := l.drop litQT.length
    let ds := rest.takeWhile Char.isDigit
    if ds.isEmpty then none
    else if litMsec.isPrefixOf (rest.drop ds.length) then some (digitsToNat ds)
    else none
  else none

/-- `re.search`: try the pattern at each position, left to right. -/
def searchQT : List Char → Option Nat
  | [] => none
  | c :: rest =>
      match matchQTAt (c :: rest) with
      | some n => some n
      | none => searchQT rest

/-- `re.search(r'Query time: (\d+) msec', output)` reduced to the captured
number. -/
def parseQueryTime (s : String) : Option Nat := searchQT s.data

/-- `DNSSpeedTester._test_dns_speed`: always returns a `(server, latency)`
pair; timeout, any raised exception, and unparsable output all become
`float('inf')`.  (`result.stdout.strip()` is `String.trim`.) -/
def testDnsSpeed (dns_server : String) (r : ProbeResult) : Ms :=
  match r with
  | .completed stdout =>
      match parseQueryTime stdout.trim with
      | some n => (dns_server, ((n : ℚ) : Latency))
      | none => (dns_server, ⊤)
  | .timedOut => (dns_server, ⊤)
  | .raisedError _ => (dns_server, ⊤)

/-- `probeFailed r` holds exactly when `_test_dns_speed` takes one of its
failure paths on outcome `r`. -/
def probeFailed : ProbeResult → Prop
  | .completed stdout => parseQueryTime stdout.trim = none
  | .timedOut => True
  | .raisedError _ => True

instance : DecidablePred probeFailed := fun r =>
  match r with
  | .completed stdout => inferInstanceAs (Decidable (parseQueryTime stdout.trim = none))
  | .timedOut => inferInstanceAs (Decidable True)
  | .raisedError _ => inferInstanceAs (Decidable True)

/-- `DNSSpeedTester._test_dns_and_update`: probe one server, insert the
measurement. -/
def testDnsAndUpdate (st : TesterState) (dns_server : String)
    (oc : String → ProbeResult) : TesterState :=
  insertMs st (testDnsSpeed dns_server (oc dns_server))

/-- `DNSSpeedTester.run_test`'s probing phase: one `_test_dns_and_update`
task per server in `self.dns_servers`, and the function returns only after
`concurrent.futures.wait` sees every task finished.  The embedding serializes
the tasks (every insertion runs under `self.lock` in the source, so the final
heap contents are a fold over the completed measurements in some completion
order; this is that fold for the given order of `dns_servers`). -/
def runTest (st : TesterState) (dns_servers : List String)
    (oc : String → ProbeResult) : TesterState :=
  match dns_servers with
  | [] => st
  | s :: rest => runTest (testDnsAndUpdate st s oc) rest oc

/-- The trace of measurements produced by the probing phase: one per
candidate, in order. -/
def probeAll (dns_servers : List String) (oc : String → ProbeResult) : List Ms :=
  dns_servers.map (fun s => testDnsSpeed s (oc s))

/-- `main`'s selection: run the test and keep the first `top_n` of the
returned servers (`fastest_servers[:top_n]`). -/
def mainSelected (dns_servers : List String) (oc : String → ProbeResult)
    (top_n : Nat) : List String :=
  (fastestServers (runTest initState dns_servers oc)).take top_n

/-! ### Specification-side definitions (for the refinement claims)

`kSmallest ms` is the spec's description of the Finalize output: the
measurements sorted ascending by latency, truncated to the capacity 10. -/

/-- Spec order on measurements: ascending latency. -/
def msLe (a b : Ms) : Prop := a.2 ≤ b.2

/-- Strict spec order on measurements (used to compare sorted lists with
pairwise-distinct latencies). -/
def msLt (a b : Ms) : Prop := a.2 < b.2

instance : DecidableRel msLe := fun a b => inferInstanceAs (Decidable (a.2 ≤ b.2))

instance : IsTotal Ms msLe := ⟨fun a b => le_total a.2 b.2⟩

instance : IsTrans Ms msLe := ⟨fun _ _ _ h1 h2 => le_trans h1 h2⟩

instance : IsAntisymm Ms msLt :=
  ⟨fun _ _ h1 h2 => absurd h1 (lt_asymm h2)⟩

/-- Modelled from the spec: the `min(N, K)` measurements with the smallest
latencies, ascending (K = 10 as hard-coded in `_update_heap`). -/
def kSmallest (ms : List Ms) : List Ms :=
  (List.insertionSort msLe ms).take 10

/-- The heap entry corresponding to a measurement. -/
def toEntry (m : Ms) : Entry := (m.2, m.1)

/-- Strict order on entries by latency (for sorted-list comparisons). -/
def eLt (a b : Entry) : Prop := a.1 < b.1

instance : IsAntisymm Entry eLt :=
  ⟨fun _ _ h1 h2 => absurd h1 (lt_asymm h2)⟩

/-- Pairwise-distinct latencies. -/
def latsNodup (ms : List Ms) : Prop := (ms.map Prod.snd).Nodup

instance : DecidablePred latsNodup := fun ms =>
  inferInstanceAs (Decidable ((ms.map Prod.snd).Nodup))

/-- A measurement with a finite latency (its probe succeeded). -/
def isFinite (m : Ms) : Bool := decide (m.2 ≠ ⊤)

/-- A heap entry with a finite latency. -/
def entryFinite (e : Entry) : Bool := decide (e.1 ≠ ⊤)

/-! ### Basic facts about the heap order and `heapTop` -/

lemma entryLt_irrefl (a : Entry) : ¬ entryLt a a := by
  simp [entryLt]

lemma entryLt_trans {a b c : Entry} (h1 : entryLt a b) (h2 : entryLt b c) :
    entryLt a c := by
  rcases h1 with h1 | ⟨e1, s1⟩ <;> rcases h2 with h2 | ⟨e2, s2⟩
  · exact Or.inl (lt_trans h2 h1)
  · exact Or.inl (e2 ▸ h1)
  · exact Or.inl (e1 ▸ h2)
  · exact Or.inr ⟨e1.trans e2, lt_trans s1 s2⟩

lemma entryLt_trichotomy (a b : Entry) : entryLt a b ∨ a = b ∨ entryLt b a := by
  rcases lt_trichotomy a.1 b.1 with h | h | h
  · exact Or.inr (Or.inr (Or.inl h))
  · rcases lt_trichotomy a.2 b.2 with h2 | h2 | h2
    · exact Or.inl (Or.inr ⟨h, h2⟩)
    · exact Or.inr (Or.inl (Prod.ext h h2))
    · exact Or.inr (Or.inr (Or.inr ⟨h.symm, h2⟩))
  · exact Or.inl (Or.inl h)

lemma min2_cases (a b : Entry) : min2 a b = a ∨ min2 a b = b := by
  unfold min2; split
  · exact Or.inr rfl
  · exact Or.inl rfl

lemma foldMin_mem : ∀ (l : List Entry) (a : Entry), l.foldl min2 a ∈ a :: l := by
  intro l
  induction l with
  | nil => intro a; simp
  | cons c l ih =>
      intro a
      have h := ih (min2 a c)
      simp only [List.foldl_cons]
      rcases List.mem_cons.mp h with h' | h'
      · rcases min2_cases a c with hm | hm
        · exact List.mem_cons.mpr (Or.inl (h'.trans hm))
        · exact List.mem_cons.mpr
            (Or.inr (List.mem_cons.mpr (Or.inl (h'.trans hm))))
      · exact List.mem_cons.mpr
          (Or.inr (List.mem_cons.mpr (Or.inr h')))

lemma min2_le_both (a c y : Entry) (hy : y = a ∨ y = c) :
    min2 a c = y ∨ entryLt (min2 a c) y := by
  unfold min2
  rcases hy with rfl | rfl
  · split
    · next h => exact Or.inr h
    · exact Or.inl rfl
  · split
    · exact Or.inl rfl
    · next h =>
        rcases entryLt_trichotomy a y with h' | h' | h'
        · exact Or.inr h'
        · exact Or.inl h'
        · exact absurd h' h

lemma foldMin_not_lt : ∀ (l : List Entry) (a x : Entry), x ∈ a :: l →
    ¬ entryLt x (l.foldl min2 a) := by
  intro l
  induction l with
  | nil =>
      intro a x hx
      simp only [List.mem_singleton] at hx
      subst hx
      exact entryLt_irrefl x
  | cons c l ih =>
      intro a x hx
      simp only [List.foldl_cons]
      have hhead : ¬ entryLt (min2 a c) (l.foldl min2 (min2 a c)) :=
        ih (min2 a c) (min2 a c) (List.mem_cons_self _ _)
      have key : ∀ y : Entry, y = a ∨ y = c →
          ¬ entryLt y (l.foldl min2 (min2 a c)) := by
        intro y hy hlt
        rcases min2_le_both a c y hy with he | hlt2
        · exact hhead (he ▸ hlt)
        · exact hhead (entryLt_trans hlt2 hlt)
      rcases List.mem_cons.mp hx with h1 | hx'
      · exact key x (Or.inl h1)
      · rcases List.mem_cons.mp hx' with h2 | hxl
        · exact key x (Or.inr h2)
        · exact ih (min2 a c) x (List.mem_cons_of_mem _ hxl)

lemma heapTop_mem {h : List Entry} (hne : h ≠ []) : heapTop h ∈ h := by
  cases h with
  | nil => exact absurd rfl hne
  | cons e l => exact foldMin_mem l e

lemma heapTop_not_lt {h : List Entry} {x : Entry} (hx : x ∈ h) :
    ¬ entryLt x (heapTop h) := by
  cases h with
  | nil => cases hx
  | cons e l => exact foldMin_not_lt l e x hx

/-- Every response time in the heap is at most the response time at
`heap[0]`: the top of the max-heap is the current worst member. -/
lemma lat_le_heapTop {h : List Entry} {x : Entry} (hx : x ∈ h) :
    x.1 ≤ (heapTop h).1 := by
  have hn := heapTop_not_lt hx
  unfold entryLt at hn
  push_neg at hn
  exact hn.1

lemma heapTop_cons_of_lt {e : Entry} {h : List Entry} (hne : h ≠ [])
    (hlt : e.1 < (heapTop h).1) : heapTop (e :: h) = heapTop h := by
  have hmem : heapTop (e :: h) ∈ e :: h := heapTop_mem (List.cons_ne_nil e h)
  have h1 : entryLt (heapTop h) e := Or.inl hlt
  rcases List.mem_cons.mp hmem with he | hh
  · exfalso
    have := heapTop_not_lt (h := e :: h)
      (List.mem_cons_of_mem e (heapTop_mem hne))
    rw [he] at this
    exact this h1
  · have hA : ¬ entryLt (heapTop (e :: h)) (heapTop h) := heapTop_not_lt hh
    have hB : ¬ entryLt (heapTop h) (heapTop (e :: h)) :=
      heapTop_not_lt (List.mem_cons_of_mem e (heapTop_mem hne))
    rcases entryLt_trichotomy (heapTop (e :: h)) (heapTop h) with h' | h' | h'
    · exact absurd h' hA
    · exact h'
    · exact absurd h' hB

/-! ### Facts about `eraseEntry` -/

lemma eraseEntry_cons_head (a : Entry) (l : List Entry) :
    eraseEntry (a :: l) a = l := by
  simp [eraseEntry]

lemma eraseEntry_cons_tail {x a : Entry} (l : List Entry) (h : x ≠ a) :
    eraseEntry (x :: l) a = x :: eraseEntry l a := by
  simp [eraseEntry, h]

lemma length_eraseEntry_of_mem : ∀ {l : List Entry} {a : Entry}, a ∈ l →
    (eraseEntry l a).length = l.length - 1 := by
  intro l
  induction l with
  | nil => intro a h; cases h
  | cons x l ih =>
      intro a h
      by_cases hx : x = a
      · rw [hx, eraseEntry_cons_head, List.length_cons]
        omega
      · have hal : a ∈ l := by
          rcases List.mem_cons.mp h with h' | h'
          · exact absurd h'.symm hx
          · exact h'
        have hpos : 0 < l.length :=
          List.length_pos.mpr (List.ne_nil_of_mem hal)
        rw [eraseEntry_cons_tail l hx, List.length_cons, List.length_cons,
          ih hal]
        omega

lemma eraseEntry_subset : ∀ (l : List Entry) (a : Entry), eraseEntry l a ⊆ l := by
  intro l
  induction l with
  | nil => intro a x hx; cases hx
  | cons y l ih =>
      intro a x hx
      by_cases hy : y = a
      · rw [hy, eraseEntry_cons_head] at hx
        exact List.mem_cons_of_mem y hx
      · rw [eraseEntry_cons_tail l hy] at hx
        rcases List.mem_cons.mp hx with h' | h'
        · exact h' ▸ List.mem_cons_self y l
        · exact List.mem_cons_of_mem y (ih a h')

lemma perm_eraseEntry {l₁ l₂ : List Entry} (a : Entry) (p : List.Perm l₁ l₂) :
    List.Perm (eraseEntry l₁ a) (eraseEntry l₂ a) := by
  induction p with
  | nil => exact List.Perm.nil
  | cons x p ih =>
      by_cases h : x = a
      · simpa [eraseEntry, h] using p
      · simpa [eraseEntry, h] using List.Perm.cons x ih
  | swap x y l =>
      by_cases hy : y = a
      · by_cases hx : x = a
        · subst hy; subst hx
          simp [eraseEntry]
        · subst hy
          simp [eraseEntry, hx]
      · by_cases hx : x = a
        · subst hx
          simp [eraseEntry, hy]
        · simp only [eraseEntry, if_neg hy, if_neg hx]
          exact List.Perm.swap x y _
  | trans _ _ ih1 ih2 => exact ih1.trans ih2

/-! ### Branch lemmas for `_update_heap` -/

lemma updateHeap_results (st : TesterState) (s : String) (t : Latency) :
    (updateHeap st s t).results = dictUpd st.results s t := by
  unfold updateHeap
  split
  · rfl
  · split <;> rfl

lemma updateHeap_fd_push {st : TesterState} (s : String) (t : Latency)
    (hlt : st.fastest_dns.length < 10) :
    (updateHeap st s t).fastest_dns = (t, s) :: st.fastest_dns := by
  unfold updateHeap heappush
  rw [if_pos hlt]

lemma fd_ne_nil_of_full {st : TesterState} (hlen : ¬ st.fastest_dns.length < 10) :
    st.fastest_dns ≠ [] := by
  intro h
  rw [h] at hlen
  exact hlen (by simp)

lemma updateHeap_fd_replace {st : TesterState} (s : String) {t : Latency}
    (hlen : ¬ st.fastest_dns.length < 10)
    (hg : t < (heapTop st.fastest_dns).1) :
    (updateHeap st s t).fastest_dns =
      (t, s) :: eraseEntry st.fastest_dns (heapTop st.fastest_dns) := by
  unfold updateHeap heappushpop
  rw [if_neg hlen, if_pos hg]
  have htop : heapTop ((t, s) :: st.fastest_dns) = heapTop st.fastest_dns :=
    heapTop_cons_of_lt (fd_ne_nil_of_full hlen) hg
  rw [htop]
  have hne : ((t, s) : Entry) ≠ heapTop st.fastest_dns := by
    intro h
    rw [← h] at hg
    exact lt_irrefl t hg
  rw [eraseEntry_cons_tail _ hne]

lemma updateHeap_fd_keep {st : TesterState} (s : String) {t : Latency}
    (hlen : ¬ st.fastest_dns.length < 10)
    (hg : ¬ t < (heapTop st.fastest_dns).1) :
    (updateHeap st s t).fastest_dns = st.fastest_dns := by
  unfold updateHeap
  rw [if_neg hlen, if_neg hg]

/-! ### Heap length -/

lemma length_updateHeap (st : TesterState) (s : String) (t : Latency) :
    (updateHeap st s t).fastest_dns.length =
      if st.fastest_dns.length < 10 then st.fastest_dns.length + 1
      else st.fastest_dns.length := by
  by_cases h1 : st.fastest_dns.length < 10
  · rw [updateHeap_fd_push s t h1, if_pos h1, List.length_cons]
  · rw [if_neg h1]
    by_cases h2 : t < (heapTop st.fastest_dns).1
    · rw [updateHeap_fd_replace s h1 h2, List.length_cons,
        length_eraseEntry_of_mem (heapTop_mem (fd_ne_nil_of_full h1))]
      omega
    · rw [updateHeap_fd_keep s h1 h2]

lemma insertAll_append_singleton (ms : List Ms) (m : Ms) :
    insertAll (ms ++ [m]) = insertMs (insertAll ms) m := by
  simp [insertAll, insertAllFrom, List.foldl_append]

lemma length_insertAll (ms : List Ms) :
    (insertAll ms).fastest_dns.length = min ms.length 10 := by
  induction ms using List.reverseRecOn with
  | nil => rfl
  | append_singleton l m ih =>
      rw [insertAll_append_singleton, insertMs, length_updateHeap, ih,
        List.length_append]
      simp only [List.length_singleton]
      split <;> omega

lemma length_finalizeHeap (st : TesterState) :
    (finalizeHeap st).length = st.fastest_dns.length := by
  unfold finalizeHeap
  rw [List.length_map, List.length_insertionSort]

/-! ### The probe always yields a measurement for its own server -/

lemma testDnsSpeed_fst (dns_server : String) (r : ProbeResult) :
    (testDnsSpeed dns_server r).1 = dns_server := by
  cases r with
  | completed out =>
      unfold testDnsSpeed
      cases h : parseQueryTime out.trim <;> simp [h]
  | timedOut => rfl
  | raisedError m => rfl

/-- The probing phase is a fold of single insertions over the trace of
measurements, one per candidate, in order. -/
lemma runTest_eq (st : TesterState) (dns_servers : List String)
    (oc : String → ProbeResult) :
    runTest st dns_servers oc = insertAllFrom st (probeAll dns_servers oc) := by
  induction dns_servers generalizing st with
  | nil => rfl
  | cons s rest ih =>
      simp only [runTest, probeAll, List.map_cons, insertAllFrom, List.foldl_cons]
      exact ih (testDnsAndUpdate st s oc)

/-! ### The `results` dict -/

lemma mem_keys_dictUpd (d : List (String × Latency)) (k : String) (v : Latency)
    (s : String) :
    s ∈ (dictUpd d k v).map Prod.fst ↔ s = k ∨ s ∈ d.map Prod.fst := by
  induction d with
  | nil => simp [dictUpd]
  | cons p rest ih =>
      obtain ⟨k', v'⟩ := p
      simp only [dictUpd]
      split
      · next heq =>
          subst heq
          simp only [List.map_cons, List.mem_cons]
          tauto
      · next hne =>
          simp only [List.map_cons, List.mem_cons, ih]
          tauto

lemma insertAll_results_keys (ms : List Ms) (s : String) :
    s ∈ (insertAll ms).results.map Prod.fst ↔ s ∈ ms.map Prod.fst := by
  induction ms using List.reverseRecOn with
  | nil => simp [insertAll, insertAllFrom, initState]
  | append_singleton l m ih =>
      rw [insertAll_append_singleton, insertMs, updateHeap_results,
        mem_keys_dictUpd]
      simp only [List.map_append, List.map_cons, List.map_nil,
        List.mem_append, List.mem_singleton, ih]
      tauto

/-! ### Sorted lists of measurements with pairwise-distinct latencies -/

lemma latsNodup_perm {ms1 ms2 : List Ms} (h : ms1.Perm ms2) (hnd : latsNodup ms1) :
    latsNodup ms2 :=
  ((h.map Prod.snd).nodup_iff).mp hnd

lemma latsNodup_snoc {ms : List Ms} {m : Ms} (h : latsNodup (ms ++ [m])) :
    latsNodup ms ∧ m.2 ∉ ms.map Prod.snd := by
  unfold latsNodup at h ⊢
  rw [List.map_append] at h
  exact ⟨h.of_append_left,
    fun hmem => (List.disjoint_of_nodup_append h) hmem (List.mem_singleton_self _)⟩

lemma latsNodup_sublist {ms1 ms2 : List Ms} (h : List.Sublist ms1 ms2)
    (hnd : latsNodup ms2) : latsNodup ms1 :=
  List.Nodup.sublist (h.map Prod.snd) hnd

lemma sorted_msLt_of_sorted {l : List Ms} (hs : List.Sorted msLe l)
    (hnd : latsNodup l) : List.Sorted msLt l := by
  have hne : List.Pairwise (fun a b : Ms => a.2 ≠ b.2) l :=
    (List.pairwise_map).mp hnd
  exact (hs.and hne).imp (fun h => lt_of_le_of_ne h.1 h.2)

/-- Two sorted lists of measurements with the same multiset and
pairwise-distinct latencies are equal. -/
lemma sorted_eq_of_perm {l1 l2 : List Ms} (hp : l1.Perm l2)
    (hs1 : List.Sorted msLe l1) (hs2 : List.Sorted msLe l2)
    (hnd : latsNodup l1) : l1 = l2 :=
  List.eq_of_perm_of_sorted (r := msLt) hp
    (sorted_msLt_of_sorted hs1 hnd)
    (sorted_msLt_of_sorted hs2 (latsNodup_perm hp hnd))

lemma insertionSort_snoc {ms : List Ms} {m : Ms} (hnd : latsNodup (ms ++ [m])) :
    List.insertionSort msLe (ms ++ [m]) =
      List.orderedInsert msLe m (List.insertionSort msLe ms) := by
  apply sorted_eq_of_perm
  · exact ((List.perm_insertionSort msLe (ms ++ [m])).trans
      ((List.perm_append_singleton m ms).trans
        ((List.Perm.cons m (List.perm_insertionSort msLe ms)).symm))).trans
      (List.perm_orderedInsert msLe m _).symm
  · exact List.sorted_insertionSort msLe (ms ++ [m])
  · exact List.Sorted.orderedInsert m _ (List.sorted_insertionSort msLe ms)
  · exact latsNodup_perm (List.perm_insertionSort msLe (ms ++ [m])).symm hnd

/-- Truncating an ordered insertion at `k` only depends on the first `k`
elements of the target list. -/
lemma orderedInsert_take (m : Ms) : ∀ (l : List Ms) (k : Nat),
    (List.orderedInsert msLe m l).take k =
      (List.orderedInsert msLe m (l.take k)).take k := by
  intro l
  induction l with
  | nil => intro k; simp
  | cons x l ih =>
      intro k
      cases k with
      | zero => simp
      | succ j =>
          have htake : ∀ (j : Nat) (l : List Ms) (x : Ms),
              (x :: l).take j = (x :: l.take j).take j := by
            intro j l x
            cases j with
            | zero => simp
            | succ i =>
                simp only [List.take_succ_cons, List.take_take]
                congr 2
                omega
          by_cases h : msLe m x
          · simp only [List.orderedInsert, if_pos h, List.take_succ_cons]
            rw [htake j l x]
          · simp only [List.orderedInsert, if_neg h, List.take_succ_cons]
            rw [ih j]

/-- If `m` is at most the final (largest) element, ordered insertion keeps
that element last. -/
lemma orderedInsert_snoc (m w : Ms) (hle : msLe m w) : ∀ l : List Ms,
    List.orderedInsert msLe m (l ++ [w]) = List.orderedInsert msLe m l ++ [w] := by
  intro l
  induction l with
  | nil => simp [List.orderedInsert, hle]
  | cons x l ih =>
      by_cases h : msLe m x
      · simp [List.orderedInsert, h]
      · rw [List.cons_append, List.orderedInsert, if_neg h, ih,
          List.orderedInsert, if_neg h, List.cons_append]

/-- If `m` is strictly beyond every element, ordered insertion appends it. -/
lemma orderedInsert_eq_append (m : Ms) : ∀ l : List Ms,
    (∀ x ∈ l, ¬ msLe m x) → List.orderedInsert msLe m l = l ++ [m] := by
  intro l
  induction l with
  | nil => intro _; rfl
  | cons x l ih =>
      intro h
      rw [List.orderedInsert, if_neg (h x (List.mem_cons_self x l)),
        ih (fun y hy => h y (List.mem_cons_of_mem x hy))]
      rfl

/-! ### `kSmallest` facts -/

lemma kSmallest_perm_of_short {ms : List Ms} (h : ms.length ≤ 10) :
    (kSmallest ms).Perm ms := by
  unfold kSmallest
  rw [List.take_of_length_le (by rw [List.length_insertionSort]; exact h)]
  exact List.perm_insertionSort msLe ms

lemma sorted_kSmallest (ms : List Ms) : List.Sorted msLe (kSmallest ms) :=
  (List.sorted_insertionSort msLe ms).sublist (List.take_sublist 10 _)

lemma latsNodup_kSmallest {ms : List Ms} (hnd : latsNodup ms) :
    latsNodup (kSmallest ms) :=
  latsNodup_sublist (List.take_sublist 10 _)
    (latsNodup_perm (List.perm_insertionSort msLe ms).symm hnd)

lemma kSmallest_subset (ms : List Ms) : kSmallest ms ⊆ ms := fun {_} hx =>
  (List.perm_insertionSort msLe ms).subset (List.take_subset 10 _ hx)

lemma length_kSmallest (ms : List Ms) :
    (kSmallest ms).length = min ms.length 10 := by
  unfold kSmallest
  rw [List.length_take, List.length_insertionSort]
  omega

lemma kSmallest_perm_eq {ms1 ms2 : List Ms} (hp : ms1.Perm ms2)
    (hnd : latsNodup ms1) : kSmallest ms1 = kSmallest ms2 := by
  unfold kSmallest
  congr 1
  apply sorted_eq_of_perm
  · exact (List.perm_insertionSort msLe ms1).trans
      (hp.trans (List.perm_insertionSort msLe ms2).symm)
  · exact List.sorted_insertionSort msLe ms1
  · exact List.sorted_insertionSort msLe ms2
  · exact latsNodup_perm (List.perm_insertionSort msLe ms1).symm hnd

/-- Main invariant of the bounded heap: after inserting measurements with
pairwise-distinct latencies, the heap holds exactly (the entries of) the
`min(N, 10)` latency-smallest measurements inserted so far. -/
lemma insertAll_heap_perm : ∀ ms : List Ms, latsNodup ms →
    List.Perm (insertAll ms).fastest_dns ((kSmallest ms).map toEntry) := by
  intro ms
  induction ms using List.reverseRecOn with
  | nil => intro _; exact List.Perm.nil
  | append_singleton ms m ih =>
      intro hnd
      obtain ⟨hnd', hmnotin⟩ := latsNodup_snoc hnd
      have ihp := ih hnd'
      have hlen : (insertAll ms).fastest_dns.length = min ms.length 10 :=
        length_insertAll ms
      rw [insertAll_append_singleton]
      simp only [insertMs]
      by_cases hshort : ms.length < 10
      · -- heap below capacity: plain push, and every measurement is kept
        have hl : (insertAll ms).fastest_dns.length < 10 := by omega
        rw [updateHeap_fd_push m.1 m.2 hl]
        have t1 : List.Perm ((m.2, m.1) :: (insertAll ms).fastest_dns)
            (toEntry m :: (kSmallest ms).map toEntry) :=
          List.Perm.cons (toEntry m) ihp
        have t2 : List.Perm (toEntry m :: (kSmallest ms).map toEntry)
            (toEntry m :: ms.map toEntry) :=
          List.Perm.cons (toEntry m)
            ((kSmallest_perm_of_short (le_of_lt hshort)).map toEntry)
        have t3 : List.Perm ((ms ++ [m]).map toEntry)
            (toEntry m :: ms.map toEntry) := by
          rw [List.map_append]
          exact List.perm_append_singleton _ _
        have t4 : List.Perm ((kSmallest (ms ++ [m])).map toEntry)
            ((ms ++ [m]).map toEntry) :=
          (kSmallest_perm_of_short
            (by rw [List.length_append, List.length_singleton]; omega)).map toEntry
        exact ((t1.trans t2).trans t3.symm).trans t4.symm
      · -- heap at capacity 10
        have hnotlt : ¬ (insertAll ms).fastest_dns.length < 10 := by omega
        have hlens10 : (kSmallest ms).length = 10 := by
          rw [length_kSmallest]; omega
        have hs10sorted : List.Sorted msLe (kSmallest ms) := sorted_kSmallest ms
        have hs10nd : latsNodup (kSmallest ms) := latsNodup_kSmallest hnd'
        obtain ⟨s9, w, hcat⟩ : ∃ s9 w, kSmallest ms = s9 ++ [w] := by
          rcases List.eq_nil_or_concat (kSmallest ms) with h | ⟨s9, w, h⟩
          · rw [h] at hlens10; simp at hlens10
          · exact ⟨s9, w, by rw [h, List.concat_eq_append]⟩
        have hs9len : s9.length = 9 := by
          have := congrArg List.length hcat
          rw [hlens10, List.length_append, List.length_singleton] at this
          omega
        have hwmax : ∀ x ∈ kSmallest ms, x.2 ≤ w.2 := by
          intro x hx
          rw [hcat] at hx hs10sorted
          rcases List.mem_append.mp hx with hx9 | hxw
          · exact (List.pairwise_append.mp hs10sorted).2.2 x hx9 w
              (List.mem_singleton_self w)
          · rw [List.mem_singleton.mp hxw]
        have hwmem10 : w ∈ kSmallest ms := by
          rw [hcat]; exact List.mem_append_right _ (List.mem_singleton_self w)
        have hne : (insertAll ms).fastest_dns ≠ [] := fd_ne_nil_of_full hnotlt
        have htopmem' : heapTop (insertAll ms).fastest_dns ∈
            (kSmallest ms).map toEntry := ihp.subset (heapTop_mem hne)
        obtain ⟨y, hy, hyeq⟩ := List.mem_map.mp htopmem'
        have hwmemfd : toEntry w ∈ (insertAll ms).fastest_dns :=
          ihp.symm.subset (List.mem_map_of_mem toEntry hwmem10)
        have hwle : w.2 ≤ (heapTop (insertAll ms).fastest_dns).1 :=
          lat_le_heapTop hwmemfd
        have hy2w2 : y.2 = w.2 := by
          have h1 : y.2 ≤ w.2 := hwmax y hy
          have h2 : w.2 ≤ y.2 := by
            have hl : (heapTop (insertAll ms).fastest_dns).1 = y.2 := by
              rw [← hyeq]; rfl
            rw [hl] at hwle
            exact hwle
          exact le_antisymm h1 h2
        have hyw : y = w := List.inj_on_of_nodup_map hs10nd hy hwmem10 hy2w2
        have htopw : heapTop (insertAll ms).fastest_dns = toEntry w := by
          rw [← hyeq, hyw]
        have hmapcat : (kSmallest ms).map toEntry =
            s9.map toEntry ++ [toEntry w] := by
          rw [hcat, List.map_append]; rfl
        by_cases hg : m.2 < (heapTop (insertAll ms).fastest_dns).1
        · -- strictly faster than the current worst: replace
          rw [updateHeap_fd_replace m.1 hnotlt hg]
          have hmw : msLe m w := by
            rw [htopw] at hg
            exact le_of_lt hg
          have hks : kSmallest (ms ++ [m]) = List.orderedInsert msLe m s9 := by
            show (List.insertionSort msLe (ms ++ [m])).take 10 = _
            rw [insertionSort_snoc hnd, orderedInsert_take m _ 10,
              show (List.insertionSort msLe ms).take 10 = kSmallest ms from rfl,
              hcat, orderedInsert_snoc m w hmw]
            have hlen9 : (List.orderedInsert msLe m s9).length = 10 := by
              rw [(List.perm_orderedInsert msLe m s9).length_eq,
                List.length_cons]
              omega
            exact List.take_left' hlen9
          rw [hks]
          have herase : List.Perm
              (eraseEntry (insertAll ms).fastest_dns
                (heapTop (insertAll ms).fastest_dns))
              (s9.map toEntry) := by
            rw [htopw]
            have h1 := perm_eraseEntry (toEntry w) ihp
            rw [hmapcat] at h1
            have h3 := perm_eraseEntry (toEntry w)
              (List.perm_append_singleton (toEntry w) (s9.map toEntry))
            rw [eraseEntry_cons_head] at h3
            exact h1.trans h3
          exact (List.Perm.cons (toEntry m) herase).trans
            ((List.perm_orderedInsert msLe m s9).map toEntry).symm
        · -- not strictly faster: discarded, heap unchanged
          rw [updateHeap_fd_keep m.1 hnotlt hg]
          have hwltm : w.2 < m.2 := by
            push_neg at hg
            rw [htopw] at hg
            rcases lt_or_eq_of_le hg with h | h
            · exact h
            · exfalso
              apply hmnotin
              rw [← h]
              exact List.mem_map_of_mem Prod.snd (kSmallest_subset ms hwmem10)
          have hnotle : ∀ x ∈ kSmallest ms, ¬ msLe m x := by
            intro x hx hmx
            exact lt_irrefl m.2 (lt_of_le_of_lt (hmx.trans (hwmax x hx)) hwltm)
          have hks : kSmallest (ms ++ [m]) = kSmallest ms := by
            show (List.insertionSort msLe (ms ++ [m])).take 10 = _
            rw [insertionSort_snoc hnd, orderedInsert_take m _ 10,
              show (List.insertionSort msLe ms).take 10 = kSmallest ms from rfl,
              orderedInsert_eq_append m _ hnotle]
            exact List.take_left' hlens10
          rw [hks]
          exact ihp

/-- If the heap contents are (the entries of) a latency-sorted list of
measurements with pairwise-distinct latencies, finalization returns exactly
that list. -/
lemma finalizeHeap_eq_of_perm (st : TesterState) (s10 : List Ms)
    (hperm : List.Perm st.fastest_dns (s10.map toEntry))
    (hs : List.Sorted msLe s10) (hnd : latsNodup s10) :
    finalizeHeap st = s10 := by
  unfold finalizeHeap
  have hsortEq : List.insertionSort eLe st.fastest_dns = s10.map toEntry := by
    apply List.eq_of_perm_of_sorted (r := eLt)
    · exact (List.perm_insertionSort eLe st.fastest_dns).trans hperm
    · have hsle : List.Sorted eLe (List.insertionSort eLe st.fastest_dns) :=
        List.sorted_insertionSort eLe st.fastest_dns
      have hndE : ((List.insertionSort eLe st.fastest_dns).map Prod.fst).Nodup := by
        have hp : List.Perm
            ((List.insertionSort eLe st.fastest_dns).map Prod.fst)
            ((s10.map toEntry).map Prod.fst) :=
          ((List.perm_insertionSort eLe st.fastest_dns).trans hperm).map Prod.fst
        have hmm : (s10.map toEntry).map Prod.fst = s10.map Prod.snd := by
          rw [List.map_map]; rfl
        rw [hmm] at hp
        exact hp.nodup_iff.mpr hnd
      have hneq : List.Pairwise (fun a b : Entry => a.1 ≠ b.1)
          (List.insertionSort eLe st.fastest_dns) := List.pairwise_map.mp hndE
      exact (hsle.and hneq).imp (fun h => lt_of_le_of_ne h.1 h.2)
    · have hlt : List.Sorted msLt s10 := sorted_msLt_of_sorted hs hnd
      exact List.Pairwise.map toEntry (fun a b h => h) hlt
  rw [hsortEq, List.map_map]
  have hid : ((fun e : Entry => (e.2, e.1)) ∘ toEntry) = (id : Ms → Ms) :=
    funext fun m => rfl
  rw [hid, List.map_id]

/-- Finalization after inserting measurements with pairwise-distinct
latencies yields the `min(N, 10)` latency-smallest, ascending. -/
lemma finalize_insertAll (ms : List Ms) (hnd : latsNodup ms) :
    finalizeHeap (insertAll ms) = kSmallest ms :=
  finalizeHeap_eq_of_perm _ _ (insertAll_heap_perm ms hnd)
    (sorted_kSmallest ms) (latsNodup_kSmallest hnd)

/-! ### Claim theorems (part 1) -/

/-- C3: the selector's size never exceeds K = 10 after any sequence of
insertions, the Finalize output after N insertions has length `min N 10`,
and an empty input yields an empty output. -/
theorem selector_size_bounded (ms : List Ms) :
    (insertAll ms).fastest_dns.length ≤ 10 ∧
    (finalizeHeap (insertAll ms)).length = min ms.length 10 ∧
    finalizeHeap (insertAll []) = [] := by
  refine ⟨?_, ?_, rfl⟩
  · rw [length_insertAll]; omega
  · rw [length_finalizeHeap, length_insertAll]

/-- C2: inserting into a selector with fewer than 10 members adds the
measurement unconditionally; into a full selector with a strictly smaller
latency than the current maximum, it evicts a maximum-latency member (the
value at `heap[0]`) and adds the new one; otherwise — including a tie with
the current maximum — it leaves the heap unchanged (first-seen wins). -/
theorem insert_step_cases (st : TesterState) (s : String) (t : Latency) :
    (st.fastest_dns.length < 10 →
      (updateHeap st s t).fastest_dns = (t, s) :: st.fastest_dns) ∧
    (st.fastest_dns.length = 10 → t < (heapTop st.fastest_dns).1 →
      heapTop st.fastest_dns ∈ st.fastest_dns ∧
      (∀ e ∈ st.fastest_dns, e.1 ≤ (heapTop st.fastest_dns).1) ∧
      (updateHeap st s t).fastest_dns =
        (t, s) :: eraseEntry st.fastest_dns (heapTop st.fastest_dns)) ∧
    (st.fastest_dns.length = 10 → (heapTop st.fastest_dns).1 ≤ t →
      (updateHeap st s t).fastest_dns = st.fastest_dns) := by
  refine ⟨fun h => updateHeap_fd_push s t h, fun hlen hg => ?_, fun hlen hg => ?_⟩
  · have hlen' : ¬ st.fastest_dns.length < 10 := by omega
    exact ⟨heapTop_mem (fd_ne_nil_of_full hlen'),
      fun e he => lat_le_heapTop he, updateHeap_fd_replace s hlen' hg⟩
  · have hlen' : ¬ st.fastest_dns.length < 10 := by omega
    exact updateHeap_fd_keep s hlen' (not_lt.mpr hg)

/-- Witness for C2: a full selector of latencies 1–10 ms, offered 0 ms,
evicts its `heap[0]` entry and gains the new measurement. -/
theorem insert_step_cases_witness :
    (updateHeap
        ⟨[], [(((1:ℚ):Latency), "a"), (((2:ℚ):Latency), "b"),
          (((3:ℚ):Latency), "c"), (((4:ℚ):Latency), "d"),
          (((5:ℚ):Latency), "e"), (((6:ℚ):Latency), "f"),
          (((7:ℚ):Latency), "g"), (((8:ℚ):Latency), "h"),
          (((9:ℚ):Latency), "i"), (((10:ℚ):Latency), "j")]⟩
        "x" ((0:ℚ):Latency)).fastest_dns =
      (((0:ℚ):Latency), "x") ::
        eraseEntry
          [(((1:ℚ):Latency), "a"), (((2:ℚ):Latency), "b"),
            (((3:ℚ):Latency), "c"), (((4:ℚ):Latency), "d"),
            (((5:ℚ):Latency), "e"), (((6:ℚ):Latency), "f"),
            (((7:ℚ):Latency), "g"), (((8:ℚ):Latency), "h"),
            (((9:ℚ):Latency), "i"), (((10:ℚ):Latency), "j")]
          (heapTop [(((1:ℚ):Latency), "a"), (((2:ℚ):Latency), "b"),
            (((3:ℚ):Latency), "c"), (((4:ℚ):Latency), "d"),
            (((5:ℚ):Latency), "e"), (((6:ℚ):Latency), "f"),
            (((7:ℚ):Latency), "g"), (((8:ℚ):Latency), "h"),
            (((9:ℚ):Latency), "i"), (((10:ℚ):Latency), "j")]) :=
  ((insert_step_cases _ "x" ((0:ℚ):Latency)).2.1 (by decide) (by decide)).2.2

/-- C10: once the selector is full, no insertion adds a member whose latency
exceeds the pre-insert maximum, and the maximum latency (the latency at
`heap[0]`) never increases. -/
theorem full_heap_worst_nonincreasing (st : TesterState) (s : String)
    (t : Latency) (hlen : st.fastest_dns.length = 10) :
    (∀ e ∈ (updateHeap st s t).fastest_dns, e.1 ≤ (heapTop st.fastest_dns).1) ∧
    (heapTop (updateHeap st s t).fastest_dns).1 ≤ (heapTop st.fastest_dns).1 := by
  have hlen' : ¬ st.fastest_dns.length < 10 := by omega
  by_cases hg : t < (heapTop st.fastest_dns).1
  · have heq := updateHeap_fd_replace s hlen' hg
    have hall : ∀ e ∈ (updateHeap st s t).fastest_dns,
        e.1 ≤ (heapTop st.fastest_dns).1 := by
      rw [heq]
      intro e he
      rcases List.mem_cons.mp he with rfl | he'
      · exact le_of_lt hg
      · exact lat_le_heapTop (eraseEntry_subset _ _ he')
    refine ⟨hall, hall _ (heapTop_mem ?_)⟩
    rw [heq]
    exact List.cons_ne_nil _ _
  · rw [updateHeap_fd_keep s hlen' hg]
    exact ⟨fun e he => lat_le_heapTop he, le_refl _⟩

/-- Witness for C10: on the full 1–10 ms selector, inserting 0 ms leaves the
worst latency no larger than before. -/
theorem full_heap_worst_nonincreasing_witness :
    (heapTop (updateHeap
        ⟨[], [(((1:ℚ):Latency), "a"), (((2:ℚ):Latency), "b"),
          (((3:ℚ):Latency), "c"), (((4:ℚ):Latency), "d"),
          (((5:ℚ):Latency), "e"), (((6:ℚ):Latency), "f"),
          (((7:ℚ):Latency), "g"), (((8:ℚ):Latency), "h"),
          (((9:ℚ):Latency), "i"), (((10:ℚ):Latency), "j")]⟩
        "x" ((0:ℚ):Latency)).fastest_dns).1 ≤
      (heapTop [(((1:ℚ):Latency), "a"), (((2:ℚ):Latency), "b"),
        (((3:ℚ):Latency), "c"), (((4:ℚ):Latency), "d"),
        (((5:ℚ):Latency), "e"), (((6:ℚ):Latency), "f"),
        (((7:ℚ):Latency), "g"), (((8:ℚ):Latency), "h"),
        (((9:ℚ):Latency), "i"), (((10:ℚ):Latency), "j")]).1 :=
  (full_heap_worst_nonincreasing _ "x" ((0:ℚ):Latency) (by decide)).2

/-- C5: the probe step is a total function returning a measurement for its
own server (no exception escapes: the source catches `TimeoutExpired` and
every other exception); timeout, a raised error, and unparsable output all
yield the infinite sentinel, and the run continues with the remaining
candidates. -/
theorem probe_never_throws (dns_server : String) (r : ProbeResult) :
    (testDnsSpeed dns_server r).1 = dns_server ∧
    (probeFailed r → (testDnsSpeed dns_server r).2 = ⊤) ∧
    (∀ (st : TesterState) (rest : List String) (oc : String → ProbeResult),
      runTest st (dns_server :: rest) oc =
        runTest (testDnsAndUpdate st dns_server oc) rest oc) := by
  refine ⟨testDnsSpeed_fst dns_server r, ?_, fun st rest oc => rfl⟩
  intro hf
  cases r with
  | completed out =>
      unfold probeFailed at hf
      simp [testDnsSpeed, hf]
  | timedOut => rfl
  | raisedError m => rfl

/-- Witness for C5: a timed-out probe returns its server with the infinite
sentinel. -/
theorem probe_never_throws_witness :
    (testDnsSpeed "1.1.1.1" ProbeResult.timedOut).1 = "1.1.1.1" ∧
    (testDnsSpeed "1.1.1.1" ProbeResult.timedOut).2 = ⊤ :=
  ⟨(probe_never_throws "1.1.1.1" ProbeResult.timedOut).1,
   (probe_never_throws "1.1.1.1" ProbeResult.timedOut).2.1 trivial⟩

/-- C7: the run probes each candidate exactly once (the trace of probed
addresses is the candidate list itself), produces exactly one measurement
per candidate, and the final state is the fold that has inserted every one
of those measurements. -/
theorem runAll_exactly_once (st : TesterState) (dns_servers : List String)
    (oc : String → ProbeResult) :
    (probeAll dns_servers oc).map Prod.fst = dns_servers ∧
    (probeAll dns_servers oc).length = dns_servers.length ∧
    runTest st dns_servers oc = insertAllFrom st (probeAll dns_servers oc) := by
  refine ⟨?_, ?_, runTest_eq st dns_servers oc⟩
  · induction dns_servers with
    | nil => rfl
    | cons s rest ih =>
        simp only [probeAll, List.map_cons] at ih ⊢
        rw [testDnsSpeed_fst, ih]
  · unfold probeAll
    rw [List.length_map]

/-- C9: the selector capacity is the hard-coded constant 10 — neither
`run_test` nor `_update_heap` takes it as a parameter — and `--top-n` only
truncates the already-finalized list, so no configuration can select or
report more than 10 servers. -/
theorem capacity_hardcoded_ten (dns_servers : List String)
    (oc : String → ProbeResult) (top_n : Nat) :
    mainSelected dns_servers oc top_n =
      (fastestServers (runTest initState dns_servers oc)).take top_n ∧
    (mainSelected dns_servers oc top_n).length ≤ 10 := by
  refine ⟨rfl, ?_⟩
  unfold mainSelected fastestServers
  rw [List.length_take, List.length_map, length_finalizeHeap, runTest_eq]
  rw [show insertAllFrom initState (probeAll dns_servers oc) =
    insertAll (probeAll dns_servers oc) from rfl, length_insertAll]
  omega

/-- C8 (amended): the heap is bounded by 10, but the `results` dict retains
an entry for every address ever inserted — also those measurements that are
not (or are no longer) members of the top-K set. -/
theorem results_retains_all_addresses (ms : List Ms) (s : String) :
    (insertAll ms).fastest_dns.length ≤ 10 ∧
    (s ∈ (insertAll ms).results.map Prod.fst ↔ s ∈ ms.map Prod.fst) :=
  ⟨by rw [length_insertAll]; omega, insertAll_results_keys ms s⟩

/-- Counterexample to C8 as stated: after inserting ten measurements of
1–10 ms and an eleventh of 100 ms, the 100 ms measurement is not in the
top-K set yet leaves its trace in `self.results`, which holds 11 entries —
more than K = 10. -/
theorem results_retention_counterexample :
    ("k", ((100:ℚ):Latency)) ∈
      (insertAll [("a", ((1:ℚ):Latency)), ("b", ((2:ℚ):Latency)),
        ("c", ((3:ℚ):Latency)), ("d", ((4:ℚ):Latency)),
        ("e", ((5:ℚ):Latency)), ("f", ((6:ℚ):Latency)),
        ("g", ((7:ℚ):Latency)), ("h", ((8:ℚ):Latency)),
        ("i", ((9:ℚ):Latency)), ("j", ((10:ℚ):Latency)),
        ("k", ((100:ℚ):Latency))]).results ∧
    "k" ∉ ((insertAll [("a", ((1:ℚ):Latency)), ("b", ((2:ℚ):Latency)),
        ("c", ((3:ℚ):Latency)), ("d", ((4:ℚ):Latency)),
        ("e", ((5:ℚ):Latency)), ("f", ((6:ℚ):Latency)),
        ("g", ((7:ℚ):Latency)), ("h", ((8:ℚ):Latency)),
        ("i", ((9:ℚ):Latency)), ("j", ((10:ℚ):Latency)),
        ("k", ((100:ℚ):Latency))]).fastest_dns.map Prod.snd) ∧
    (insertAll [("a", ((1:ℚ):Latency)), ("b", ((2:ℚ):Latency)),
        ("c", ((3:ℚ):Latency)), ("d", ((4:ℚ):Latency)),
        ("e", ((5:ℚ):Latency)), ("f", ((6:ℚ):Latency)),
        ("g", ((7:ℚ):Latency)), ("h", ((8:ℚ):Latency)),
        ("i", ((9:ℚ):Latency)), ("j", ((10:ℚ):Latency)),
        ("k", ((100:ℚ):Latency))]).results.length = 11 := by
  decide

/-! ### Failure measurements and the infinite sentinel -/

lemma testDnsSpeed_failed (dns_server : String) {r : ProbeResult}
    (h : probeFailed r) : testDnsSpeed dns_server r = (dns_server, ⊤) := by
  cases r with
  | completed out =>
      unfold probeFailed at h
      simp [testDnsSpeed, h]
  | timedOut => rfl
  | raisedError m => rfl

lemma eraseEntry_sublist : ∀ (l : List Entry) (a : Entry),
    List.Sublist (eraseEntry l a) l := by
  intro l
  induction l with
  | nil => intro a; exact List.Sublist.refl []
  | cons x l ih =>
      intro a
      by_cases h : x = a
      · rw [h, eraseEntry_cons_head]
        exact List.sublist_cons_self a l
      · rw [eraseEntry_cons_tail l h]
        exact List.Sublist.cons₂ x (ih a)

/-- Every entry ever held by the heap comes from an inserted measurement:
the heap contents form a sub-multiset of the insertion trace. -/
lemma insertAll_heap_subperm : ∀ ms : List Ms,
    List.Subperm (insertAll ms).fastest_dns (ms.map toEntry) := by
  intro ms
  induction ms using List.reverseRecOn with
  | nil => exact List.nil_subperm
  | append_singleton ms m ih =>
      rw [insertAll_append_singleton]
      simp only [insertMs]
      have hperm : List.Perm ((ms ++ [m]).map toEntry)
          (toEntry m :: ms.map toEntry) := by
        rw [List.map_append]
        exact List.perm_append_singleton _ _
      by_cases h1 : (insertAll ms).fastest_dns.length < 10
      · rw [updateHeap_fd_push m.1 m.2 h1]
        obtain ⟨l, hp, hs⟩ := ih
        have hstep : List.Subperm ((m.2, m.1) :: (insertAll ms).fastest_dns)
            (toEntry m :: ms.map toEntry) :=
          ⟨toEntry m :: l, List.Perm.cons _ hp, hs.cons₂ _⟩
        exact hstep.trans hperm.symm.subperm
      · by_cases h2 : m.2 < (heapTop (insertAll ms).fastest_dns).1
        · rw [updateHeap_fd_replace m.1 h1 h2]
          obtain ⟨l, hp, hs⟩ := (eraseEntry_sublist (insertAll ms).fastest_dns
            (heapTop (insertAll ms).fastest_dns)).subperm.trans ih
          have hstep : List.Subperm
              ((m.2, m.1) :: eraseEntry (insertAll ms).fastest_dns
                (heapTop (insertAll ms).fastest_dns))
              (toEntry m :: ms.map toEntry) :=
            ⟨toEntry m :: l, List.Perm.cons _ hp, hs.cons₂ _⟩
          exact hstep.trans hperm.symm.subperm
        · rw [updateHeap_fd_keep m.1 h1 h2]
          have hsub : List.Sublist (ms.map toEntry) ((ms ++ [m]).map toEntry) := by
            rw [List.map_append]
            exact List.sublist_append_left _ _
          exact ih.trans hsub.subperm

/-! ### Claim theorems (part 2): selection correctness -/

/-- C1: for a multiset of measurements with pairwise-distinct latencies,
inserting them in any order and finalizing returns exactly the `min(N, 10)`
latency-smallest measurements as `(address, latency)` pairs, ascending by
latency. -/
theorem selection_correct (order ms : List Ms) (hp : List.Perm order ms)
    (hnd : latsNodup ms) : finalizeHeap (insertAll order) = kSmallest ms := by
  have hndo : latsNodup order := latsNodup_perm hp.symm hnd
  rw [finalize_insertAll order hndo, kSmallest_perm_eq hp hndo]

/-- Witness for C1: inserting 2 ms then 1 ms finalizes to the sorted pair
list. -/
theorem selection_correct_witness :
    List.Perm [("a", ((2:ℚ):Latency)), ("b", ((1:ℚ):Latency))]
      [("b", ((1:ℚ):Latency)), ("a", ((2:ℚ):Latency))] ∧
    latsNodup [("b", ((1:ℚ):Latency)), ("a", ((2:ℚ):Latency))] ∧
    finalizeHeap (insertAll [("a", ((2:ℚ):Latency)), ("b", ((1:ℚ):Latency))]) =
      kSmallest [("b", ((1:ℚ):Latency)), ("a", ((2:ℚ):Latency))] :=
  ⟨by decide, by decide,
    selection_correct _ _ (by decide) (by decide)⟩

/-- C4 (amended): when the inserted latencies are pairwise distinct, any two
insertion orders of the same multiset finalize to the identical output. -/
theorem order_independent_distinct (ms1 ms2 : List Ms)
    (hp : List.Perm ms1 ms2) (hnd : latsNodup ms1) :
    finalizeHeap (insertAll ms1) = finalizeHeap (insertAll ms2) := by
  rw [finalize_insertAll ms1 hnd,
    finalize_insertAll ms2 (latsNodup_perm hp hnd),
    kSmallest_perm_eq hp hnd]

/-- Witness for C4 (amended): the two orders of a distinct-latency pair give
the same finalized output. -/
theorem order_independent_distinct_witness :
    List.Perm [("a", ((2:ℚ):Latency)), ("b", ((1:ℚ):Latency))]
      [("b", ((1:ℚ):Latency)), ("a", ((2:ℚ):Latency))] ∧
    latsNodup [("a", ((2:ℚ):Latency)), ("b", ((1:ℚ):Latency))] ∧
    finalizeHeap (insertAll [("a", ((2:ℚ):Latency)), ("b", ((1:ℚ):Latency))]) =
      finalizeHeap (insertAll [("b", ((1:ℚ):Latency)), ("a", ((2:ℚ):Latency))]) :=
  ⟨by decide, by decide,
    order_independent_distinct _ _ (by decide) (by decide)⟩

/-- Counterexample to C4 as stated: eleven measurements that all tie at
5 ms.  Inserted in one order the set keeps the first ten and discards "b";
with "b" first it keeps "b" and discards "a9".  The two finalized outputs
differ as sets of `(address, latency)` pairs, not merely in ordering. -/
theorem order_dependence_on_ties :
    List.Perm
      [("a0", ((5:ℚ):Latency)), ("a1", ((5:ℚ):Latency)),
        ("a2", ((5:ℚ):Latency)), ("a3", ((5:ℚ):Latency)),
        ("a4", ((5:ℚ):Latency)), ("a5", ((5:ℚ):Latency)),
        ("a6", ((5:ℚ):Latency)), ("a7", ((5:ℚ):Latency)),
        ("a8", ((5:ℚ):Latency)), ("a9", ((5:ℚ):Latency)),
        ("b", ((5:ℚ):Latency))]
      [("b", ((5:ℚ):Latency)), ("a0", ((5:ℚ):Latency)),
        ("a1", ((5:ℚ):Latency)), ("a2", ((5:ℚ):Latency)),
        ("a3", ((5:ℚ):Latency)), ("a4", ((5:ℚ):Latency)),
        ("a5", ((5:ℚ):Latency)), ("a6", ((5:ℚ):Latency)),
        ("a7", ((5:ℚ):Latency)), ("a8", ((5:ℚ):Latency)),
        ("a9", ((5:ℚ):Latency))] ∧
    "b" ∈
      (finalizeHeap (insertAll
        [("b", ((5:ℚ):Latency)), ("a0", ((5:ℚ):Latency)),
          ("a1", ((5:ℚ):Latency)), ("a2", ((5:ℚ):Latency)),
          ("a3", ((5:ℚ):Latency)), ("a4", ((5:ℚ):Latency)),
          ("a5", ((5:ℚ):Latency)), ("a6", ((5:ℚ):Latency)),
          ("a7", ((5:ℚ):Latency)), ("a8", ((5:ℚ):Latency)),
          ("a9", ((5:ℚ):Latency))])).map Prod.fst ∧
    "b" ∉
      (finalizeHeap (insertAll
        [("a0", ((5:ℚ):Latency)), ("a1", ((5:ℚ):Latency)),
          ("a2", ((5:ℚ):Latency)), ("a3", ((5:ℚ):Latency)),
          ("a4", ((5:ℚ):Latency)), ("a5", ((5:ℚ):Latency)),
          ("a6", ((5:ℚ):Latency)), ("a7", ((5:ℚ):Latency)),
          ("a8", ((5:ℚ):Latency)), ("a9", ((5:ℚ):Latency)),
          ("b", ((5:ℚ):Latency))])).map Prod.fst := by
  refine ⟨by decide, by decide, by decide⟩

/-! ### Claim theorems (part 3): failure handling -/

/-- C6 (amended): a failed probe is inserted with the infinite sentinel; the
sentinel at `heap[0]` of a full selector is evicted by any finite latency;
if fewer than `min(N, 10)` of the N inserted measurements have finite
latency the Finalize output contains failure entries; and with every
measurement failing the output is `min(N, 10)` failure entries. -/
theorem failure_sentinel_behavior :
    (∀ (st : TesterState) (s : String) (oc : String → ProbeResult),
      probeFailed (oc s) → testDnsAndUpdate st s oc = updateHeap st s ⊤) ∧
    (∀ (res : List (String × Latency)) (h : List Entry) (s : String)
      (t : Latency), h.length = 10 → (heapTop h).1 = ⊤ → t < ⊤ →
      (t, s) ∈ (updateHeap ⟨res, h⟩ s t).fastest_dns) ∧
    (∀ ms : List Ms, List.countP isFinite ms < min ms.length 10 →
      ∃ p ∈ finalizeHeap (insertAll ms), p.2 = ⊤) ∧
    (∀ ms : List Ms, (∀ m ∈ ms, m.2 = ⊤) →
      (finalizeHeap (insertAll ms)).length = min ms.length 10 ∧
      ∀ p ∈ finalizeHeap (insertAll ms), p.2 = ⊤) := by
  refine ⟨?_, ?_, ?_, ?_⟩
  · intro st s oc hf
    simp only [testDnsAndUpdate, insertMs, testDnsSpeed_failed s hf]
  · intro res h s t hlen htop hlt
    have hnotlt : ¬ (⟨res, h⟩ : TesterState).fastest_dns.length < 10 := by
      show ¬ h.length < 10
      omega
    have hg : t < (heapTop (⟨res, h⟩ : TesterState).fastest_dns).1 := by
      show t < (heapTop h).1
      rw [htop]
      exact hlt
    rw [updateHeap_fd_replace s hnotlt hg]
    exact List.mem_cons_self _ _
  · intro ms hcount
    have hsp := insertAll_heap_subperm ms
    have hc2 : List.countP entryFinite (insertAll ms).fastest_dns ≤
        List.countP entryFinite (ms.map toEntry) :=
      List.Subperm.countP_le entryFinite hsp
    have hc3 : List.countP entryFinite (ms.map toEntry) =
        List.countP isFinite ms := by
      rw [List.countP_map]
      rfl
    have hlen := length_insertAll ms
    have hlt : List.countP entryFinite (insertAll ms).fastest_dns <
        (insertAll ms).fastest_dns.length := by omega
    have hex : ∃ e ∈ (insertAll ms).fastest_dns, ¬ entryFinite e := by
      by_contra hno
      push_neg at hno
      have := List.countP_eq_length.mpr hno
      omega
    obtain ⟨e, he, hef⟩ := hex
    have he1 : e.1 = ⊤ := by
      unfold entryFinite at hef
      simpa using hef
    refine ⟨(e.2, e.1), ?_, he1⟩
    exact List.mem_map_of_mem _
      ((List.perm_insertionSort eLe _).symm.subset he)
  · intro ms hall
    constructor
    · rw [length_finalizeHeap, length_insertAll]
    · intro p hp
      obtain ⟨e, he, hpe⟩ := List.mem_map.mp hp
      have he' : e ∈ (insertAll ms).fastest_dns :=
        (List.perm_insertionSort eLe _).subset he
      have hems : e ∈ ms.map toEntry :=
        (insertAll_heap_subperm ms).subset he'
      obtain ⟨m, hm, hme⟩ := List.mem_map.mp hems
      have htop : e.1 = ⊤ := by
        rw [← hme]
        exact hall m hm
      rw [← hpe]
      exact htop

/-- Witness for C6 (amended): a timed-out probe inserts `⊤`, and a 0 ms
measurement lands in a full selector whose worst member is `⊤`. -/
theorem failure_sentinel_behavior_witness :
    testDnsAndUpdate initState "a" (fun _ => ProbeResult.timedOut) =
      updateHeap initState "a" ⊤ ∧
    (((0:ℚ):Latency), "x") ∈
      (updateHeap
        ⟨[], [((⊤:Latency), "a"), ((⊤:Latency), "b"), ((⊤:Latency), "c"),
          ((⊤:Latency), "d"), ((⊤:Latency), "e"), ((⊤:Latency), "f"),
          ((⊤:Latency), "g"), ((⊤:Latency), "h"), ((⊤:Latency), "i"),
          ((⊤:Latency), "j")]⟩
        "x" ((0:ℚ):Latency)).fastest_dns :=
  ⟨failure_sentinel_behavior.1 initState "a" (fun _ => ProbeResult.timedOut)
      trivial,
   failure_sentinel_behavior.2.1 []
      [((⊤:Latency), "a"), ((⊤:Latency), "b"), ((⊤:Latency), "c"),
        ((⊤:Latency), "d"), ((⊤:Latency), "e"), ((⊤:Latency), "f"),
        ((⊤:Latency), "g"), ((⊤:Latency), "h"), ((⊤:Latency), "i"),
        ((⊤:Latency), "j")]
      "x" ((0:ℚ):Latency) (by decide) (by decide) (by decide)⟩

/-- Counterexample to C6 as stated: a single 1 ms measurement.  Fewer than
K = 10 inserted measurements have finite latency, yet the Finalize output is
just that measurement and contains no failure (infinite-latency) entry. -/
theorem finite_under_K_no_failure_output :
    List.countP isFinite [("a", ((1:ℚ):Latency))] < 10 ∧
    finalizeHeap (insertAll [("a", ((1:ℚ):Latency))]) =
      [("a", ((1:ℚ):Latency))] ∧
    (⊤:Latency) ∉
      (finalizeHeap (insertAll [("a", ((1:ℚ):Latency))])).map Prod.snd := by
  refine ⟨by decide, by decide, by decide⟩

end DNSpeedy
